import Mathlib

/-!
Verification of the Optimal Binary Search Tree program (obst_completo.py).

The program builds three tables by dynamic programming:

  e[i][j]    : minimum expected search cost for the keys of interval i..j
  w[i][j]    : probability weight of interval i..j
  root[i][j] : index of the root chosen for interval i..j

and then derives pre-order, in-order and post-order key sequences from the
root table alone.  We embed the tables as functions over rational numbers
(the Python program uses floating point; rationals give the exact value of
the same recurrence).  Cells that the Python code never writes keep their
initial value (0.0 for e and w, 0 for root); the embedding returns the same
defaults outside the written region i in 1..n+1, i-1 <= j <= n.
-/

namespace OBST

/-- Weight table of optimal_bst.  Mirrors the source:
    base case  w[i][i-1] = q[i-1]  (rows i = 1..n+1), and for i <= j
    the incremental recurrence  w[i][j] = w[i][j-1] + p[j-1] + q[j].
    Unwritten cells (row 0, or j < i-1) stay at their initial 0.0. -/
def w (p q : List ℚ) (i : ℕ) : ℕ → ℚ
  | 0 => if i = 1 then q.getD 0 0 else 0
  | j + 1 =>
    if i = 0 then 0
    else if j + 2 ≤ i then (if j + 2 = i then q.getD (j + 1) 0 else 0)
    else w p q i j + p.getD j 0 + q.getD (j + 1) 0

/-- One step of the candidate-root scan of optimal_bst.  The accumulator
    none models the initial state (melhor_r, melhor_custo) = (None, inf):
    the first candidate always wins against infinity, and afterwards only a
    strictly smaller cost replaces the current best (custo < melhor_custo). -/
def step (acc : Option (ℚ × ℕ)) (c : ℚ × ℕ) : Option (ℚ × ℕ) :=
  match acc with
  | none => some c
  | some b => if c.1 < b.1 then some c else some b

/-- Result of scanning a list of (cost, candidate-root) pairs in order,
    exactly as the inner r-loop of optimal_bst does. -/
def pickBest (l : List (ℚ × ℕ)) : Option (ℚ × ℕ) :=
  l.foldl step none

/-- Cost table of optimal_bst, presented with an explicit fuel argument so
    that the recursion is structural.  For fuel >= j+2-i this computes the
    table entry e[i][j]: base case e[i][i-1] = q[i-1], and for i <= j the
    minimum over r in i..j of e[i][r-1] + e[r+1][j] + w[i][j], minimised by
    the scan with strict comparison.  Unwritten cells give 0. -/
def eF (p q : List ℚ) : ℕ → ℕ → ℕ → ℚ
  | 0, _, _ => 0
  | fuel + 1, i, j =>
    if i = 0 then 0
    else if j + 1 ≤ i then (if j + 1 = i then q.getD j 0 else 0)
    else
      match pickBest ((List.range' i (j + 1 - i)).map
          (fun r => (eF p q fuel i (r - 1) + eF p q fuel (r + 1) j + w p q i j, r))) with
      | some b => b.1
      | none => 0

/-- Cost table e of optimal_bst: entry e[i][j]. -/
def e (p q : List ℚ) (i j : ℕ) : ℚ :=
  eF p q (j + 2 - i) i j

/-- Cost of choosing r as the root of interval i..j, as computed inside the
    scan of optimal_bst: e[i][r-1] + e[r+1][j] + w[i][j]. -/
def candCost (p q : List ℚ) (i j r : ℕ) : ℚ :=
  e p q i (r - 1) + e p q (r + 1) j + w p q i j

/-- Candidate list (custo, r) for r = i..j, in the order scanned by the
    inner loop of optimal_bst. -/
def cands (p q : List ℚ) (i j : ℕ) : List (ℚ × ℕ) :=
  (List.range' i (j + 1 - i)).map (fun r => (candCost p q i j r, r))

/-- Root table of optimal_bst: root[i][j] = melhor_r of the scan over the
    candidates of interval i..j.  Unwritten cells (empty intervals) give the
    initial value 0. -/
def root (p q : List ℚ) (i j : ℕ) : ℕ :=
  if i = 0 then 0
  else if j < i then 0
  else
    match pickBest (cands p q i j) with
    | some b => b.2
    | none => 0

/-- Error kinds raised by validate_probabilities (ValueError cases). -/
inductive ValidationError : Type
  | shapeMismatch : ValidationError
  | negativeProbability : ValidationError
  | normalizationFailure : ValidationError
deriving DecidableEq

/-- The validator: raises (returns an error) when len(q) is not len(p)+1,
    when some entry of p ++ q is negative, or when sum(p)+sum(q) differs
    from 1 by more than 1e-6; otherwise it returns normally. -/
def validate_probabilities (p q : List ℚ) : Except ValidationError Unit :=
  if q.length ≠ p.length + 1 then .error .shapeMismatch
  else if (p ++ q).any (fun x => decide (x < 0)) then .error .negativeProbability
  else if |p.sum + q.sum - 1| > 1 / 1000000 then .error .normalizationFailure
  else .ok ()

/-- The triple of tables returned by optimal_bst, after its own check that
    keys and p have the same length. -/
def optimal_bst (α : Type) (p q : List ℚ) (keys : List α) :
    Except ValidationError ((ℕ → ℕ → ℚ) × (ℕ → ℕ → ℚ) × (ℕ → ℕ → ℕ)) :=
  if keys.length ≠ p.length then .error .shapeMismatch
  else .ok (e p q, w p q, root p q)

/-- Pre-order traversal derived from the root table, with fuel making the
    recursion structural; fuel j+1-i is enough whenever the root table keeps
    roots inside their intervals. -/
def preorderF {α : Type} [Inhabited α] (R : ℕ → ℕ → ℕ) (keys : List α) :
    ℕ → ℕ → ℕ → List α
  | 0, _, _ => []
  | fuel + 1, i, j =>
    if j < i then []
    else
      [keys.getD (R i j - 1) default]
        ++ preorderF R keys fuel i (R i j - 1)
        ++ preorderF R keys fuel (R i j + 1) j

/-- In-order traversal derived from the root table (fuel presentation). -/
def inorderF {α : Type} [Inhabited α] (R : ℕ → ℕ → ℕ) (keys : List α) :
    ℕ → ℕ → ℕ → List α
  | 0, _, _ => []
  | fuel + 1, i, j =>
    if j < i then []
    else
      inorderF R keys fuel i (R i j - 1)
        ++ [keys.getD (R i j - 1) default]
        ++ inorderF R keys fuel (R i j + 1) j

/-- Post-order traversal derived from the root table (fuel presentation). -/
def postorderF {α : Type} [Inhabited α] (R : ℕ → ℕ → ℕ) (keys : List α) :
    ℕ → ℕ → ℕ → List α
  | 0, _, _ => []
  | fuel + 1, i, j =>
    if j < i then []
    else
      postorderF R keys fuel i (R i j - 1)
        ++ postorderF R keys fuel (R i j + 1) j
        ++ [keys.getD (R i j - 1) default]

/-- preorder_from_root(root, keys, i, j) of the source. -/
def preorder_from_root {α : Type} [Inhabited α] (R : ℕ → ℕ → ℕ) (keys : List α)
    (i j : ℕ) : List α :=
  preorderF R keys (j + 1 - i) i j

/-- inorder_from_root(root, keys, i, j) of the source. -/
def inorder_from_root {α : Type} [Inhabited α] (R : ℕ → ℕ → ℕ) (keys : List α)
    (i j : ℕ) : List α :=
  inorderF R keys (j + 1 - i) i j

/-- postorder_from_root(root, keys, i, j) of the source. -/
def postorder_from_root {α : Type} [Inhabited α] (R : ℕ → ℕ → ℕ) (keys : List α)
    (i j : ℕ) : List α :=
  postorderF R keys (j + 1 - i) i j

/-- Closed-form interval weight, following the words of the specification:
    sum of p over keys i..j plus sum of q over gaps i-1..j. -/
def wSpec (p q : List ℚ) (i j : ℕ) : ℚ :=
  ((List.range' i (j + 1 - i)).map (fun t => p.getD (t - 1) 0)).sum
    + ((List.range' (i - 1) (j + 2 - i)).map (fun g => q.getD g 0)).sum

/-- Shape of a binary search tree over an interval of key indices: a leaf
    stands for an empty interval, a node carries the index of its root key
    together with the two subtrees. -/
inductive BTree : Type
  | leaf : BTree
  | node : BTree → ℕ → BTree → BTree

/-- wfTree t i j holds when t is a binary-search-tree shape on exactly the
    keys i..j: a leaf stands for the empty interval, and a node's root key
    splits its interval into the two subtrees' intervals. -/
def wfTree : BTree → ℕ → ℕ → Prop
  | .leaf, i, j => j + 1 = i
  | .node l rt r, i, j => i ≤ rt ∧ rt ≤ j ∧ wfTree l i (rt - 1) ∧ wfTree r (rt + 1) j

/-- Key indices of a tree. -/
def keysOf : BTree → List ℕ
  | .leaf => []
  | .node l rt r => rt :: (keysOf l ++ keysOf r)

/-- Gap indices of a tree over an interval starting at i. -/
def gapsOf : BTree → ℕ → List ℕ
  | .leaf, i => [i - 1]
  | .node l rt r, i => gapsOf l i ++ gapsOf r (rt + 1)

/-- Pairs (key index, depth of that key) for a tree whose root is at depth
    d; the root of the whole tree is at depth 0. -/
def keyDepths : BTree → ℕ → List (ℕ × ℕ)
  | .leaf, _ => []
  | .node l rt r, d => (rt, d) :: (keyDepths l (d + 1) ++ keyDepths r (d + 1))

/-- Pairs (gap index, level of that gap) for a tree over an interval
    starting at i whose root is at depth d.  The level of a gap is one more
    than the depth at which its empty subtree hangs, i.e. the number of key
    comparisons of the corresponding unsuccessful search as the recurrence
    charges it. -/
def gapDepths : BTree → ℕ → ℕ → List (ℕ × ℕ)
  | .leaf, i, d => [(i - 1, d + 1)]
  | .node l rt r, i, d => gapDepths l i (d + 1) ++ gapDepths r (rt + 1) (d + 1)

/-- Expected search cost of a tree whose root is at depth d: sum over keys k
    of p[k] * (depth(k) + 1) plus sum over gaps g of q[g] * level(g). -/
def costD (p q : List ℚ) (t : BTree) (i d : ℕ) : ℚ :=
  ((keyDepths t d).map (fun kd => p.getD (kd.1 - 1) 0 * ((kd.2 : ℚ) + 1))).sum
    + ((gapDepths t i d).map (fun gd => q.getD gd.1 0 * (gd.2 : ℚ))).sum

/-- Expected search cost of a whole tree over an interval starting at i, as
    the specification words it: sum over keys of p[k] * (depth(k) + 1) plus
    sum over gaps of q[g] * depth(gap g), the root at depth 0. -/
def costT (p q : List ℚ) (t : BTree) (i : ℕ) : ℚ :=
  costD p q t i 0

/-- Total probability mass covered by a tree over an interval starting
    at i. -/
def massT (p q : List ℚ) (t : BTree) (i : ℕ) : ℚ :=
  ((keysOf t).map (fun k => p.getD (k - 1) 0)).sum
    + ((gapsOf t i).map (fun g => q.getD g 0)).sum

/-- Recursive form of the expected search cost, following the shape of the
    recurrence: empty subtree costs its gap probability, a node costs its
    subtrees plus the whole interval weight. -/
def costR (p q : List ℚ) : BTree → ℕ → ℕ → ℚ
  | .leaf, i, _ => q.getD (i - 1) 0
  | .node l rt r, i, j => costR p q l i (rt - 1) + costR p q r (rt + 1) j + w p q i j

/-- The tree shape encoded in the root table, read off recursively (with
    fuel making the recursion structural; fuel j+1-i suffices). -/
def buildTree (p q : List ℚ) : ℕ → ℕ → ℕ → BTree
  | 0, _, _ => .leaf
  | fuel + 1, i, j =>
    if j < i then .leaf
    else
      .node (buildTree p q fuel i (root p q i j - 1)) (root p q i j)
        (buildTree p q fuel (root p q i j + 1) j)

/-- The example key list of main(). -/
def keysAna : List String := [r"Ana", r"Bruno", r"Carla", r"Diego"]

/-- The example access probabilities p of main(). -/
def cP : List ℚ := [35/100, 25/100, 25/100, 15/100]

/-- The example gap probabilities q of main(). -/
def cQ : List ℚ := [2/100, 2/100, 2/100, 2/100, 2/100]

/-- The example p after the exact normalization main performs: the inputs
    sum to 11/10, so every entry is rescaled by 10/11. -/
def cPn : List ℚ := cP.map (fun x => (10/11) * x)

/-- The example q after the exact normalization main performs. -/
def cQn : List ℚ := cQ.map (fun x => (10/11) * x)

/-- Symmetric probabilities of the tie-break test. -/
def tieP : List ℚ := [1/2, 1/2]

/-- Gap probabilities of the tie-break test. -/
def tieQ : List ℚ := [0, 0, 0]

end OBST

namespace OBST

/-- A getD lookup with default 0 in a list of nonnegative entries is
    nonnegative. -/
theorem getD_nonneg {l : List ℚ} {k : ℕ} (h : ∀ x ∈ l, 0 ≤ x) :
    0 ≤ l.getD k 0 := by
  by_cases hk : k < l.length
  · rw [List.getD_eq_getElem?_getD, List.getElem?_eq_getElem hk]
    exact h _ (List.getElem_mem hk)
  · rw [List.getD_eq_default _ _ (by omega)]

/-- The fuel argument of eF is irrelevant once it is at least j+2-i. -/
theorem eF_irrel (p q : List ℚ) :
    ∀ f1 f2 i j, j + 2 - i ≤ f1 → j + 2 - i ≤ f2 →
      eF p q f1 i j = eF p q f2 i j := by
  intro f1
  induction f1 with
  | zero =>
    intro f2 i j h1 h2
    have hi : i ≠ 0 := by omega
    have hj : j + 1 ≤ i := by omega
    have hj2 : j + 1 ≠ i := by omega
    cases f2 with
    | zero => rfl
    | succ m => simp [eF, hi, hj, hj2]
  | succ m ih =>
    intro f2 i j h1 h2
    cases f2 with
    | zero =>
      have hi : i ≠ 0 := by omega
      have hj : j + 1 ≤ i := by omega
      have hj2 : j + 1 ≠ i := by omega
      simp [eF, hi, hj, hj2]
    | succ m2 =>
      simp only [eF]
      by_cases hi : i = 0
      · simp [hi]
      · by_cases hj : j + 1 ≤ i
        · simp [hi, hj]
        · simp only [hi, hj, if_false, if_neg]
          have hmap : (List.range' i (j + 1 - i)).map
              (fun r => (eF p q m i (r - 1) + eF p q m (r + 1) j + w p q i j, r)) =
              (List.range' i (j + 1 - i)).map
              (fun r => (eF p q m2 i (r - 1) + eF p q m2 (r + 1) j + w p q i j, r)) := by
            apply List.map_congr_left
            intro r hr
            rw [List.mem_range'_1] at hr
            have hr1 : i ≤ r := hr.1
            have hr2 : r < i + (j + 1 - i) := hr.2
            have e1 : eF p q m i (r - 1) = eF p q m2 i (r - 1) :=
              ih m2 i (r - 1) (by omega) (by omega)
            have e2 : eF p q m (r + 1) j = eF p q m2 (r + 1) j :=
              ih m2 (r + 1) j (by omega) (by omega)
            rw [e1, e2]
          rw [hmap]

/-- Base case of the cost table: e[i][i-1] = q[i-1]. -/
theorem e_base (p q : List ℚ) (i j : ℕ) (h1 : 1 ≤ i) (h2 : j + 1 = i) :
    e p q i j = q.getD j 0 := by
  have : j + 2 - i = 1 := by omega
  rw [e, this]
  simp [eF, h2, show i ≠ 0 by omega]

/-- Cells of e never written by the program are the initial 0. -/
theorem e_unwritten (p q : List ℚ) (i j : ℕ) (h : i = 0 ∨ j + 2 ≤ i) :
    e p q i j = 0 := by
  rcases h with h | h
  · subst h
    rw [e]
    cases j + 2 with
    | zero => rfl
    | succ m => simp [eF]
  · have : j + 2 - i = 0 := by omega
    rw [e, this]
    rfl

/-- Recurrence of the cost table: for a non-empty interval, e[i][j] is the
    cost component of the candidate scan. -/
theorem e_rec (p q : List ℚ) (i j : ℕ) (h1 : 1 ≤ i) (h2 : i ≤ j) :
    e p q i j =
      match pickBest (cands p q i j) with
      | some b => b.1
      | none => 0 := by
  have hfuel : j + 2 - i = (j + 1 - i) + 1 := by omega
  rw [e, hfuel]
  simp only [eF, show i ≠ 0 by omega, if_false, show ¬(j + 1 ≤ i) by omega]
  have hmap : (List.range' i (j + 1 - i)).map
      (fun r => (eF p q (j + 1 - i) i (r - 1) + eF p q (j + 1 - i) (r + 1) j + w p q i j, r)) =
      cands p q i j := by
    rw [cands]
    apply List.map_congr_left
    intro r hr
    rw [List.mem_range'_1] at hr
    have hr1 : i ≤ r := hr.1
    have hr2 : r < i + (j + 1 - i) := hr.2
    have e1 : eF p q (j + 1 - i) i (r - 1) = e p q i (r - 1) :=
      eF_irrel p q _ _ i (r - 1) (by omega) (by omega)
    have e2 : eF p q (j + 1 - i) (r + 1) j = e p q (r + 1) j :=
      eF_irrel p q _ _ (r + 1) j (by omega) (by omega)
    rw [e1, e2, candCost]
  rw [hmap]

/-- Behaviour of the strict-comparison scan, fold over an index range with a
    seeded accumulator: the result is the minimum, and any index that beats
    the result appears no earlier than the result's own index. -/
theorem scan_spec (g : ℕ → ℚ) : ∀ (L a : ℕ) (b : ℚ × ℕ),
    ∃ c, ((List.range' a L).map (fun r => (g r, r))).foldl step (some b) = some c ∧
      c.1 ≤ b.1 ∧ (∀ r, a ≤ r → r < a + L → c.1 ≤ g r) ∧
      (c = b ∨ (a ≤ c.2 ∧ c.2 < a + L ∧ c.1 = g c.2 ∧ c.1 < b.1 ∧
        ∀ r, a ≤ r → r < c.2 → c.1 < g r)) := by
  intro L
  induction L with
  | zero =>
    intro a b
    refine ⟨b, rfl, le_refl _, ?_, Or.inl rfl⟩
    intro r hr1 hr2
    omega
  | succ L ih =>
    intro a b
    have hcons : List.range' a (L + 1) = a :: List.range' (a + 1) L := rfl
    rw [hcons, List.map_cons, List.foldl_cons]
    by_cases hga : g a < b.1
    · have hstep : step (some b) (g a, a) = some (g a, a) := by
        simp [step, hga]
      rw [hstep]
      obtain ⟨c, hfold, hle, hmin, hprov⟩ := ih (a + 1) (g a, a)
      refine ⟨c, hfold, le_trans hle (le_of_lt hga), ?_, ?_⟩
      · intro r hr1 hr2
        rcases eq_or_lt_of_le hr1 with h | h
        · rw [← h]; exact hle
        · exact hmin r (by omega) (by omega)
      · rcases hprov with h | ⟨h1, h2, h3, h4, h5⟩
        · right
          have hc2 : c.2 = a := by rw [h]
          refine ⟨by omega, by omega, ?_, ?_, ?_⟩
          · rw [h]
          · rw [h]; exact hga
          · intro r hr1 hr2
            omega
        · right
          refine ⟨by omega, by omega, h3, lt_trans h4 hga, ?_⟩
          intro r hr1 hr2
          rcases eq_or_lt_of_le hr1 with h | h
          · rw [← h]; exact h4
          · exact h5 r (by omega) hr2
    · have hstep : step (some b) (g a, a) = some b := by
        simp [step, hga]
      rw [hstep]
      obtain ⟨c, hfold, hle, hmin, hprov⟩ := ih (a + 1) b
      refine ⟨c, hfold, hle, ?_, ?_⟩
      · intro r hr1 hr2
        rcases eq_or_lt_of_le hr1 with h | h
        · rw [← h]; exact le_trans hle (by linarith [not_lt.mp hga])
        · exact hmin r (by omega) (by omega)
      · rcases hprov with h | ⟨h1, h2, h3, h4, h5⟩
        · exact Or.inl h
        · right
          refine ⟨by omega, by omega, h3, h4, ?_⟩
          intro r hr1 hr2
          rcases eq_or_lt_of_le hr1 with h | h
          · rw [← h]; exact lt_of_lt_of_le h4 (not_lt.mp hga)
          · exact h5 r (by omega) hr2

end OBST

namespace OBST

/-- Master description of the scan of a non-empty interval: the chosen root
    lies in i..j, e[i][j] is its candidate cost, this cost is minimal among
    all candidates, and every candidate strictly left of the chosen root has
    strictly larger cost (the strict-comparison tie-break). -/
theorem root_spec (p q : List ℚ) (i j : ℕ) (h1 : 1 ≤ i) (h2 : i ≤ j) :
    i ≤ root p q i j ∧ root p q i j ≤ j ∧
      e p q i j = candCost p q i j (root p q i j) ∧
      (∀ r, i ≤ r → r ≤ j → candCost p q i j (root p q i j) ≤ candCost p q i j r) ∧
      (∀ r, i ≤ r → r < root p q i j →
        candCost p q i j (root p q i j) < candCost p q i j r) := by
  have hL : j + 1 - i = (j - i) + 1 := by omega
  have hcons : List.range' i ((j - i) + 1) = i :: List.range' (i + 1) (j - i) := rfl
  have hcands : cands p q i j =
      (candCost p q i j i, i) ::
        (List.range' (i + 1) (j - i)).map (fun r => (candCost p q i j r, r)) := by
    rw [cands, hL, hcons, List.map_cons]
  obtain ⟨c, hfold, hle, hmin, hprov⟩ :=
    scan_spec (candCost p q i j) (j - i) (i + 1) (candCost p q i j i, i)
  have hpick : pickBest (cands p q i j) = some c := by
    rw [hcands, pickBest, List.foldl_cons]
    exact hfold
  have hroot : root p q i j = c.2 := by
    rw [root, if_neg (by omega), if_neg (by omega), hpick]
  have he : e p q i j = c.1 := by
    rw [e_rec p q i j h1 h2, hpick]
  have hc1 : c.1 = candCost p q i j c.2 := by
    rcases hprov with h | ⟨_, _, h3, _, _⟩
    · rw [h]
    · exact h3
  have hbounds : i ≤ c.2 ∧ c.2 ≤ j := by
    rcases hprov with h | ⟨hb1, hb2, _, _, _⟩
    · have : c.2 = i := by rw [h]
      omega
    · omega
  refine ⟨by omega, by omega, ?_, ?_, ?_⟩
  · rw [he, hroot, hc1]
  · intro r hr1 hr2
    rw [hroot, ← hc1]
    rcases eq_or_lt_of_le hr1 with h | h
    · rw [← h]; exact hle
    · exact hmin r (by omega) (by omega)
  · intro r hr1 hr2
    rw [hroot, ← hc1]
    rw [hroot] at hr2
    rcases hprov with h | ⟨_, _, _, h4, h5⟩
    · have : c.2 = i := by rw [h]
      omega
    · rcases eq_or_lt_of_le hr1 with h | h
      · rw [← h]; exact h4
      · exact h5 r (by omega) hr2

/-- The incremental weight recurrence agrees with the closed-form sum of the
    probabilities of the interval, for every row i >= 1 and every j >= i-1. -/
theorem w_eq_wSpec (p q : List ℚ) :
    ∀ j i, 1 ≤ i → i ≤ j + 1 → w p q i j = wSpec p q i j := by
  intro j
  induction j with
  | zero =>
    intro i hi1 hi2
    have : i = 1 := by omega
    subst this
    simp [w, wSpec, List.range']
  | succ j ih =>
    intro i hi1 hi2
    rcases eq_or_lt_of_le hi2 with h | h
    · -- empty interval: i = j + 2
      rw [w, if_neg (by omega), if_pos (by omega), if_pos (by omega)]
      rw [wSpec, show j + 1 + 1 - i = 0 by omega, show j + 1 + 2 - i = 1 by omega]
      simp [List.range', show i - 1 = j + 1 by omega]
    · -- non-empty: i <= j + 1
      have hrec : w p q i (j + 1) = w p q i j + p.getD j 0 + q.getD (j + 1) 0 := by
        rw [w, if_neg (by omega), if_neg (by omega)]
      rw [hrec, ih i hi1 (by omega)]
      rw [wSpec, wSpec]
      have hp : List.range' i (j + 1 + 1 - i) = List.range' i (j + 1 - i) ++ [j + 1] := by
        have h1 : j + 1 + 1 - i = (j + 1 - i) + 1 := by omega
        rw [h1, List.range'_concat]
        congr 1
        simp
        omega
      have hq : List.range' (i - 1) (j + 1 + 2 - i) =
          List.range' (i - 1) (j + 2 - i) ++ [j + 1] := by
        have h1 : j + 1 + 2 - i = (j + 2 - i) + 1 := by omega
        rw [h1, List.range'_concat]
        congr 1
        simp
        omega
      rw [hp, hq, List.map_append, List.map_append, List.sum_append, List.sum_append]
      simp
      ring

/-- Splitting an index range at an interior point. -/
theorem range'_split (s m k : ℕ) (h : m ≤ k) :
    List.range' s k = List.range' s m ++ List.range' (s + m) (k - m) := by
  have h2 := List.range'_append s m (k - m) 1
  rw [one_mul] at h2
  conv_lhs => rw [show k = k - m + m from by omega]
  exact h2.symm

/-- Additivity of the interval weight at a chosen root r:
    w[i][j] = w[i][r-1] + p[r-1] + w[r+1][j]. -/
theorem w_split (p q : List ℚ) (i j r : ℕ)
    (h1 : 1 ≤ i) (h2 : i ≤ r) (h3 : r ≤ j) :
    w p q i j = w p q i (r - 1) + p.getD (r - 1) 0 + w p q (r + 1) j := by
  rw [w_eq_wSpec p q j i h1 (by omega), w_eq_wSpec p q (r - 1) i h1 (by omega),
    w_eq_wSpec p q j (r + 1) (by omega) (by omega)]
  rw [wSpec, wSpec, wSpec]
  have hsplit1 : List.range' i (j + 1 - i) =
      List.range' i (r - i) ++ (r :: List.range' (r + 1) (j - r)) := by
    rw [range'_split i (r - i) (j + 1 - i) (by omega),
      show i + (r - i) = r from by omega,
      show j + 1 - i - (r - i) = (j - r) + 1 from by omega]
    rfl
  have hsplit2 : List.range' (i - 1) (j + 2 - i) =
      List.range' (i - 1) (r + 1 - i) ++ List.range' r (j + 1 - r) := by
    rw [range'_split (i - 1) (r + 1 - i) (j + 2 - i) (by omega),
      show i - 1 + (r + 1 - i) = r from by omega,
      show j + 2 - i - (r + 1 - i) = j + 1 - r from by omega]
  rw [hsplit1, hsplit2]
  rw [show r - 1 + 1 - i = r - i from by omega, show r - 1 + 2 - i = r + 1 - i from by omega,
    show j + 1 - (r + 1) = j - r from by omega, show j + 2 - (r + 1) = j + 1 - r from by omega,
    show r + 1 - 1 = r from by omega]
  simp only [List.map_append, List.sum_append, List.map_cons, List.sum_cons]
  ring

end OBST

namespace OBST

/-- The weight table is nonnegative when all probabilities are. -/
theorem w_nonneg (p q : List ℚ) (hp : ∀ x ∈ p, 0 ≤ x) (hq : ∀ x ∈ q, 0 ≤ x) :
    ∀ j i, 0 ≤ w p q i j := by
  intro j
  induction j with
  | zero =>
    intro i
    rw [w]
    split
    · exact getD_nonneg hq
    · exact le_refl 0
  | succ j ih =>
    intro i
    rw [w]
    split
    · exact le_refl 0
    · split
      · split
        · exact getD_nonneg hq
        · exact le_refl 0
      · have h1 := ih i
        have h2 : (0:ℚ) ≤ p.getD j 0 := getD_nonneg hp
        have h3 : (0:ℚ) ≤ q.getD (j + 1) 0 := getD_nonneg hq
        linarith

/-- The cost table is nonnegative when all probabilities are. -/
theorem e_nonneg (p q : List ℚ) (hp : ∀ x ∈ p, 0 ≤ x) (hq : ∀ x ∈ q, 0 ≤ x) :
    ∀ L i j, j + 1 - i ≤ L → 0 ≤ e p q i j := by
  intro L
  induction L with
  | zero =>
    intro i j hL
    have hji : j + 1 ≤ i := by omega
    rcases eq_or_lt_of_le hji with h2 | h2
    · rw [e_base p q i j (by omega) h2]
      exact getD_nonneg hq
    · rw [e_unwritten p q i j (Or.inr (by omega))]
  | succ L ih =>
    intro i j hL
    by_cases hi : i = 0
    · rw [e_unwritten p q i j (Or.inl hi)]
    · by_cases hji : j + 1 ≤ i
      · rcases eq_or_lt_of_le hji with h2 | h2
        · rw [e_base p q i j (by omega) h2]
          exact getD_nonneg hq
        · rw [e_unwritten p q i j (Or.inr (by omega))]
      · obtain ⟨hb1, hb2, he, _, _⟩ := root_spec p q i j (by omega) (by omega)
        rw [he, candCost]
        have h1 : 0 ≤ e p q i (root p q i j - 1) := ih i _ (by omega)
        have h2 : 0 ≤ e p q (root p q i j + 1) j := ih _ j (by omega)
        have h3 := w_nonneg p q hp hq j i
        linarith

/-- On every non-empty interval the cost is at least the interval weight. -/
theorem e_ge_w (p q : List ℚ) (hp : ∀ x ∈ p, 0 ≤ x) (hq : ∀ x ∈ q, 0 ≤ x)
    (i j : ℕ) (h1 : 1 ≤ i) (h2 : i ≤ j) : w p q i j ≤ e p q i j := by
  obtain ⟨hb1, hb2, he, _, _⟩ := root_spec p q i j h1 h2
  rw [he, candCost]
  have ha : 0 ≤ e p q i (root p q i j - 1) :=
    e_nonneg p q hp hq _ i _ (le_refl _)
  have hb : 0 ≤ e p q (root p q i j + 1) j :=
    e_nonneg p q hp hq _ _ j (le_refl _)
  linarith

/-- In-order traversal of any root table whose roots stay inside their
    intervals lists exactly the keys of the interval, in input order. -/
theorem inorderF_slice {α : Type} [Inhabited α] (keys : List α) (R : ℕ → ℕ → ℕ)
    (hR : ∀ i j, 1 ≤ i → i ≤ j → i ≤ R i j ∧ R i j ≤ j) :
    ∀ fuel i j, 1 ≤ i → j ≤ keys.length → j + 1 - i ≤ fuel →
      inorderF R keys fuel i j = (keys.drop (i - 1)).take (j + 1 - i) := by
  intro fuel
  induction fuel with
  | zero =>
    intro i j hi hj hL
    rw [show j + 1 - i = 0 from by omega]
    rfl
  | succ fuel ih =>
    intro i j hi hj hL
    by_cases hij : j < i
    · rw [show j + 1 - i = 0 from by omega]
      simp [inorderF, hij]
    · have hij2 : i ≤ j := by omega
      obtain ⟨hr1, hr2⟩ := hR i j hi hij2
      rw [inorderF, if_neg hij]
      rw [ih i (R i j - 1) hi (by omega) (by omega)]
      rw [ih (R i j + 1) j (by omega) hj (by omega)]
      rw [show R i j - 1 + 1 - i = R i j - i from by omega,
        show j + 1 - (R i j + 1) = j - R i j from by omega,
        show R i j + 1 - 1 = R i j from by omega]
      rw [show j + 1 - i = (R i j - i) + ((j - R i j) + 1) from by omega, List.take_add]
      rw [List.drop_drop]
      rw [show i - 1 + (R i j - i) = R i j - 1 from by omega]
      have hlen : R i j - 1 < keys.length := by omega
      rw [List.drop_eq_getElem_cons hlen, List.take_succ_cons]
      rw [List.getD_eq_getElem?_getD, List.getElem?_eq_getElem hlen]
      simp [List.drop_drop, show R i j - 1 + 1 = R i j from by omega]

end OBST

namespace OBST

/-- getD lookup in a uniformly rescaled list. -/
theorem getD_map_mul (l : List ℚ) (c : ℚ) (k : ℕ) :
    (l.map (fun x => c * x)).getD k 0 = c * l.getD k 0 := by
  rw [List.getD_eq_getElem?_getD, List.getD_eq_getElem?_getD, List.getElem?_map]
  cases l[k]? with
  | none => simp
  | some a => simp

/-- The weight table rescales linearly with the probabilities. -/
theorem w_scale (p q : List ℚ) (c : ℚ) :
    ∀ j i, w (p.map (fun x => c * x)) (q.map (fun x => c * x)) i j = c * w p q i j := by
  intro j
  induction j with
  | zero =>
    intro i
    rw [w, w]
    split
    · rw [getD_map_mul]
    · rw [mul_zero]
  | succ j ih =>
    intro i
    rw [w, w]
    split
    · rw [mul_zero]
    · split
      · split
        · rw [getD_map_mul]
        · rw [mul_zero]
      · rw [ih, getD_map_mul, getD_map_mul]
        ring

/-- Scaling a pair list by a positive factor in the first component commutes
    with one step of the scan. -/
theorem step_scale (c : ℚ) (hc : 0 < c) (acc : Option (ℚ × ℕ)) (x : ℚ × ℕ) :
    step (acc.map (fun b => (c * b.1, b.2))) (c * x.1, x.2) =
      (step acc x).map (fun b => (c * b.1, b.2)) := by
  cases acc with
  | none => rfl
  | some b =>
    by_cases h : x.1 < b.1
    · simp [step, h, (mul_lt_mul_left hc).mpr h]
    · have h2 : ¬ c * x.1 < c * b.1 := by
        rw [mul_lt_mul_left hc]
        exact h
      simp [step, h, h2]

/-- The whole scan commutes with positive rescaling of the costs. -/
theorem foldl_step_scale (c : ℚ) (hc : 0 < c) :
    ∀ (l : List (ℚ × ℕ)) (acc : Option (ℚ × ℕ)),
      (l.map (fun b => (c * b.1, b.2))).foldl step (acc.map (fun b => (c * b.1, b.2))) =
        (l.foldl step acc).map (fun b => (c * b.1, b.2)) := by
  intro l
  induction l with
  | nil => intro acc; rfl
  | cons x xs ih =>
    intro acc
    rw [List.map_cons, List.foldl_cons, List.foldl_cons, step_scale c hc acc x, ih]

/-- The cost table rescales linearly under a positive factor. -/
theorem eF_scale (p q : List ℚ) (c : ℚ) (hc : 0 < c) :
    ∀ fuel i j, eF (p.map (fun x => c * x)) (q.map (fun x => c * x)) fuel i j =
      c * eF p q fuel i j := by
  intro fuel
  induction fuel with
  | zero => intro i j; simp [eF]
  | succ fuel ih =>
    intro i j
    rw [eF, eF]
    split
    · rw [mul_zero]
    · split
      · split
        · rw [getD_map_mul]
        · rw [mul_zero]
      · have hmap : (List.range' i (j + 1 - i)).map
            (fun r => (eF (p.map (fun x => c * x)) (q.map (fun x => c * x)) fuel i (r - 1) +
              eF (p.map (fun x => c * x)) (q.map (fun x => c * x)) fuel (r + 1) j +
              w (p.map (fun x => c * x)) (q.map (fun x => c * x)) i j, r)) =
            ((List.range' i (j + 1 - i)).map
              (fun r => (eF p q fuel i (r - 1) + eF p q fuel (r + 1) j + w p q i j, r))).map
              (fun b => (c * b.1, b.2)) := by
          rw [List.map_map]
          apply List.map_congr_left
          intro r hr
          simp only [Function.comp_apply]
          rw [ih, ih, w_scale]
          congr 1
          ring
        rw [hmap, pickBest, pickBest]
        have hfold := foldl_step_scale c hc
          ((List.range' i (j + 1 - i)).map
            (fun r => (eF p q fuel i (r - 1) + eF p q fuel (r + 1) j + w p q i j, r))) none
        rw [show (none : Option (ℚ × ℕ)).map (fun b => (c * b.1, b.2)) = none from rfl] at hfold
        rw [hfold]
        cases ((List.range' i (j + 1 - i)).map
            (fun r => (eF p q fuel i (r - 1) + eF p q fuel (r + 1) j + w p q i j, r))).foldl
            step none with
        | none => simp
        | some b => rfl

/-- Entry-level form of the scaling of e. -/
theorem e_scale (p q : List ℚ) (c : ℚ) (hc : 0 < c) (i j : ℕ) :
    e (p.map (fun x => c * x)) (q.map (fun x => c * x)) i j = c * e p q i j := by
  rw [e, e, eF_scale p q c hc]

/-- The chosen roots are invariant under a uniform positive rescaling of all
    probabilities. -/
theorem root_scale (p q : List ℚ) (c : ℚ) (hc : 0 < c) (i j : ℕ) :
    root (p.map (fun x => c * x)) (q.map (fun x => c * x)) i j = root p q i j := by
  rw [root, root]
  split
  · rfl
  · split
    · rfl
    · have hcands : cands (p.map (fun x => c * x)) (q.map (fun x => c * x)) i j =
          (cands p q i j).map (fun b => (c * b.1, b.2)) := by
        rw [cands, cands, List.map_map]
        apply List.map_congr_left
        intro r hr
        simp only [Function.comp_apply]
        rw [candCost, candCost, e_scale p q c hc, e_scale p q c hc, w_scale]
        congr 1
        ring
      rw [hcands, pickBest, pickBest]
      have hfold := foldl_step_scale c hc (cands p q i j) none
      rw [show (none : Option (ℚ × ℕ)).map (fun b => (c * b.1, b.2)) = none from rfl] at hfold
      rw [hfold]
      cases (cands p q i j).foldl step none with
      | none => rfl
      | some b => rfl

end OBST

namespace OBST

/-- Base cells of the weight table: w[i][i-1] = q[i-1]. -/
theorem w_base (p q : List ℚ) (i j : ℕ) (h1 : 1 ≤ i) (h2 : j + 1 = i) :
    w p q i j = q.getD j 0 := by
  cases j with
  | zero => rw [w, if_pos (by omega)]
  | succ j => rw [w, if_neg (by omega), if_pos (by omega), if_pos (by omega)]

/-- The key-lookup sums of keyDepths do not depend on the depth offset. -/
theorem keyDepths_sum_indep (f : ℕ → ℚ) :
    ∀ (t : BTree) (d : ℕ),
      ((keyDepths t d).map (fun kd => f kd.1)).sum = ((keysOf t).map f).sum := by
  intro t
  induction t with
  | leaf => intro d; rfl
  | node l rt r ihl ihr =>
    intro d
    simp only [keyDepths, keysOf, List.map_cons, List.map_append, List.sum_cons,
      List.sum_append, ihl, ihr]

/-- The gap-lookup sums of gapDepths do not depend on the depth offset. -/
theorem gapDepths_sum_indep (f : ℕ → ℚ) :
    ∀ (t : BTree) (i d : ℕ),
      ((gapDepths t i d).map (fun gd => f gd.1)).sum = ((gapsOf t i).map f).sum := by
  intro t
  induction t with
  | leaf => intro i d; rfl
  | node l rt r ihl ihr =>
    intro i d
    simp only [gapDepths, gapsOf, List.map_append, List.sum_append, ihl, ihr]

/-- Decomposition of the depth-formula cost at a node. -/
theorem costD_node (p q : List ℚ) (l : BTree) (rt : ℕ) (r : BTree) (i d : ℕ) :
    costD p q (.node l rt r) i d =
      p.getD (rt - 1) 0 * ((d : ℚ) + 1) + costD p q l i (d + 1) +
        costD p q r (rt + 1) (d + 1) := by
  simp only [costD, keyDepths, gapDepths, List.map_cons, List.map_append,
    List.sum_cons, List.sum_append]
  ring

/-- Raising the depth offset by one adds the tree's probability mass once. -/
theorem costD_shift (p q : List ℚ) :
    ∀ (t : BTree) (i d : ℕ),
      costD p q t i (d + 1) = costD p q t i d + massT p q t i := by
  intro t
  induction t with
  | leaf =>
    intro i d
    simp only [costD, massT, keyDepths, gapDepths, keysOf, gapsOf, List.map_cons,
      List.map_nil, List.sum_cons, List.sum_nil]
    push_cast
    ring
  | node l rt r ihl ihr =>
    intro i d
    rw [costD_node, costD_node, ihl, ihr]
    have hmass : massT p q (.node l rt r) i =
        p.getD (rt - 1) 0 + massT p q l i + massT p q r (rt + 1) := by
      simp only [massT, keysOf, gapsOf, List.map_cons, List.map_append,
        List.sum_cons, List.sum_append]
      ring
    rw [hmass]
    push_cast
    ring

/-- Mass of a node decomposition. -/
theorem massT_node (p q : List ℚ) (l : BTree) (rt : ℕ) (r : BTree) (i : ℕ) :
    massT p q (.node l rt r) i =
      p.getD (rt - 1) 0 + massT p q l i + massT p q r (rt + 1) := by
  simp only [massT, keysOf, gapsOf, List.map_cons, List.map_append,
    List.sum_cons, List.sum_append]
  ring

/-- Over its interval, the mass of a well-formed tree is the interval
    weight of the table. -/
theorem massT_eq_w (p q : List ℚ) :
    ∀ (t : BTree) (i j : ℕ), wfTree t i j → 1 ≤ i → massT p q t i = w p q i j := by
  intro t
  induction t with
  | leaf =>
    intro i j hwf hi
    have hj : j + 1 = i := hwf
    rw [w_base p q i j hi hj]
    simp only [massT, keysOf, gapsOf, List.map_cons, List.map_nil, List.sum_cons,
      List.sum_nil, List.map_nil, List.sum_nil]
    rw [show i - 1 = j from by omega]
    ring
  | node l rt r ihl ihr =>
    intro i j hwf hi
    obtain ⟨h1, h2, hwl, hwr⟩ := hwf
    rw [massT_node, ihl i (rt - 1) hwl hi, ihr (rt + 1) j hwr (by omega)]
    rw [w_split p q i j rt hi h1 h2]
    ring

/-- On well-formed trees the recursive cost equals the depth-formula cost. -/
theorem costR_eq_costD (p q : List ℚ) :
    ∀ (t : BTree) (i j : ℕ), wfTree t i j → 1 ≤ i →
      costR p q t i j = costD p q t i 0 := by
  intro t
  induction t with
  | leaf =>
    intro i j hwf hi
    simp only [costR, costD, keyDepths, gapDepths, List.map_cons, List.map_nil,
      List.sum_cons, List.sum_nil]
    push_cast
    ring
  | node l rt r ihl ihr =>
    intro i j hwf hi
    obtain ⟨h1, h2, hwl, hwr⟩ := hwf
    rw [costR, costD_node, costD_shift, costD_shift,
      ihl i (rt - 1) hwl hi, ihr (rt + 1) j hwr (by omega),
      massT_eq_w p q l i (rt - 1) hwl hi, massT_eq_w p q r (rt + 1) j hwr (by omega),
      w_split p q i j rt hi h1 h2]
    push_cast
    ring

/-- The table entry is a lower bound for the recursive cost of every
    well-formed tree on the interval. -/
theorem e_le_costR (p q : List ℚ) :
    ∀ (t : BTree) (i j : ℕ), 1 ≤ i → wfTree t i j →
      e p q i j ≤ costR p q t i j := by
  intro t
  induction t with
  | leaf =>
    intro i j hi hwf
    have hj : j + 1 = i := hwf
    rw [e_base p q i j hi hj, costR, show i - 1 = j from by omega]
  | node l rt r ihl ihr =>
    intro i j hi hwf
    obtain ⟨h1, h2, hwl, hwr⟩ := hwf
    obtain ⟨_, _, _, hmin, _⟩ := root_spec p q i j hi (by omega)
    have hc := hmin rt h1 h2
    have hl := ihl i (rt - 1) hi hwl
    have hr := ihr (rt + 1) j (by omega) hwr
    rw [costR]
    calc e p q i j ≤ candCost p q i j rt := by
          obtain ⟨_, _, he, _, _⟩ := root_spec p q i j hi (by omega)
          rw [he]; exact hc
      _ ≤ costR p q l i (rt - 1) + costR p q r (rt + 1) j + w p q i j := by
          rw [candCost]; linarith
      _ = _ := rfl

/-- The tree read off from the root table is well formed and its recursive
    cost is exactly the table entry. -/
theorem buildTree_spec (p q : List ℚ) :
    ∀ (fuel i j : ℕ), 1 ≤ i → i ≤ j + 1 → j + 1 - i ≤ fuel →
      wfTree (buildTree p q fuel i j) i j ∧
        costR p q (buildTree p q fuel i j) i j = e p q i j := by
  intro fuel
  induction fuel with
  | zero =>
    intro i j hi h1 hL
    have hj : j + 1 = i := by omega
    constructor
    · exact hj
    · rw [buildTree, costR, e_base p q i j hi hj, show i - 1 = j from by omega]
  | succ fuel ih =>
    intro i j hi h1 hL
    by_cases hij : j < i
    · have hj : j + 1 = i := by omega
      rw [buildTree, if_pos hij]
      constructor
      · exact hj
      · rw [costR, e_base p q i j hi hj, show i - 1 = j from by omega]
    · obtain ⟨hr1, hr2, he, _, _⟩ := root_spec p q i j hi (by omega)
      obtain ⟨ihwl, ihcl⟩ := ih i (root p q i j - 1) hi (by omega) (by omega)
      obtain ⟨ihwr, ihcr⟩ := ih (root p q i j + 1) j (by omega) (by omega) (by omega)
      rw [buildTree, if_neg hij]
      constructor
      · exact ⟨hr1, hr2, ihwl, ihwr⟩
      · rw [costR, ihcl, ihcr, he, candCost]

end OBST

namespace OBST

/-- Table value for the example input. -/
theorem ce_1_0 : e cP cQ 1 0 = (1/50 : ℚ) := by
  rw [e_base cP cQ 1 0 (by norm_num) rfl]
  norm_num [cQ]

/-- Table value for the example input. -/
theorem ce_2_1 : e cP cQ 2 1 = (1/50 : ℚ) := by
  rw [e_base cP cQ 2 1 (by norm_num) rfl]
  norm_num [cQ]

/-- Table value for the example input. -/
theorem ce_3_2 : e cP cQ 3 2 = (1/50 : ℚ) := by
  rw [e_base cP cQ 3 2 (by norm_num) rfl]
  norm_num [cQ]

/-- Table value for the example input. -/
theorem ce_4_3 : e cP cQ 4 3 = (1/50 : ℚ) := by
  rw [e_base cP cQ 4 3 (by norm_num) rfl]
  norm_num [cQ]

/-- Table value for the example input. -/
theorem ce_5_4 : e cP cQ 5 4 = (1/50 : ℚ) := by
  rw [e_base cP cQ 5 4 (by norm_num) rfl]
  norm_num [cQ]

/-- Table value for the example input. -/
theorem cw_1_1 : w cP cQ 1 1 = (39/100 : ℚ) := by
  norm_num [cP, cQ, w]

/-- Scan result for the example input. -/
theorem cpick_1_1 : pickBest (cands cP cQ 1 1) = some ((43/100 : ℚ), 1) := by
  rw [cands]
  norm_num [List.range', candCost, pickBest, step, ce_1_0, ce_2_1, cw_1_1]

/-- Table value for the example input. -/
theorem ce_1_1 : e cP cQ 1 1 = (43/100 : ℚ) := by
  rw [e_rec cP cQ 1 1 (by norm_num) (by norm_num), cpick_1_1]

/-- Table value for the example input. -/
theorem cw_2_2 : w cP cQ 2 2 = (29/100 : ℚ) := by
  norm_num [cP, cQ, w]

/-- Scan result for the example input. -/
theorem cpick_2_2 : pickBest (cands cP cQ 2 2) = some ((33/100 : ℚ), 2) := by
  rw [cands]
  norm_num [List.range', candCost, pickBest, step, ce_2_1, ce_3_2, cw_2_2]

/-- Table value for the example input. -/
theorem ce_2_2 : e cP cQ 2 2 = (33/100 : ℚ) := by
  rw [e_rec cP cQ 2 2 (by norm_num) (by norm_num), cpick_2_2]

/-- Table value for the example input. -/
theorem cw_3_3 : w cP cQ 3 3 = (29/100 : ℚ) := by
  norm_num [cP, cQ, w]

/-- Scan result for the example input. -/
theorem cpick_3_3 : pickBest (cands cP cQ 3 3) = some ((33/100 : ℚ), 3) := by
  rw [cands]
  norm_num [List.range', candCost, pickBest, step, ce_3_2, ce_4_3, cw_3_3]

/-- Table value for the example input. -/
theorem ce_3_3 : e cP cQ 3 3 = (33/100 : ℚ) := by
  rw [e_rec cP cQ 3 3 (by norm_num) (by norm_num), cpick_3_3]

/-- Table value for the example input. -/
theorem cw_4_4 : w cP cQ 4 4 = (19/100 : ℚ) := by
  norm_num [cP, cQ, w]

/-- Scan result for the example input. -/
theorem cpick_4_4 : pickBest (cands cP cQ 4 4) = some ((23/100 : ℚ), 4) := by
  rw [cands]
  norm_num [List.range', candCost, pickBest, step, ce_4_3, ce_5_4, cw_4_4]

/-- Table value for the example input. -/
theorem ce_4_4 : e cP cQ 4 4 = (23/100 : ℚ) := by
  rw [e_rec cP cQ 4 4 (by norm_num) (by norm_num), cpick_4_4]

/-- Table value for the example input. -/
theorem cw_1_2 : w cP cQ 1 2 = (33/50 : ℚ) := by
  norm_num [cP, cQ, w]

/-- Scan result for the example input. -/
theorem cpick_1_2 : pickBest (cands cP cQ 1 2) = some ((101/100 : ℚ), 1) := by
  rw [cands]
  norm_num [List.range', candCost, pickBest, step, ce_1_0, ce_2_2, ce_1_1, ce_3_2, cw_1_2]

/-- Table value for the example input. -/
theorem ce_1_2 : e cP cQ 1 2 = (101/100 : ℚ) := by
  rw [e_rec cP cQ 1 2 (by norm_num) (by norm_num), cpick_1_2]

/-- Table value for the example input. -/
theorem cw_2_3 : w cP cQ 2 3 = (14/25 : ℚ) := by
  norm_num [cP, cQ, w]

/-- Scan result for the example input. -/
theorem cpick_2_3 : pickBest (cands cP cQ 2 3) = some ((91/100 : ℚ), 2) := by
  rw [cands]
  norm_num [List.range', candCost, pickBest, step, ce_2_1, ce_3_3, ce_2_2, ce_4_3, cw_2_3]

/-- Table value for the example input. -/
theorem ce_2_3 : e cP cQ 2 3 = (91/100 : ℚ) := by
  rw [e_rec cP cQ 2 3 (by norm_num) (by norm_num), cpick_2_3]

/-- Table value for the example input. -/
theorem cw_3_4 : w cP cQ 3 4 = (23/50 : ℚ) := by
  norm_num [cP, cQ, w]

/-- Scan result for the example input. -/
theorem cpick_3_4 : pickBest (cands cP cQ 3 4) = some ((71/100 : ℚ), 3) := by
  rw [cands]
  norm_num [List.range', candCost, pickBest, step, ce_3_2, ce_4_4, ce_3_3, ce_5_4, cw_3_4]

/-- Table value for the example input. -/
theorem ce_3_4 : e cP cQ 3 4 = (71/100 : ℚ) := by
  rw [e_rec cP cQ 3 4 (by norm_num) (by norm_num), cpick_3_4]

/-- Table value for the example input. -/
theorem cw_1_3 : w cP cQ 1 3 = (93/100 : ℚ) := by
  norm_num [cP, cQ, w]

/-- Scan result for the example input. -/
theorem cpick_1_3 : pickBest (cands cP cQ 1 3) = some ((169/100 : ℚ), 2) := by
  rw [cands]
  norm_num [List.range', candCost, pickBest, step, ce_1_0, ce_2_3, ce_1_1, ce_3_3, ce_1_2, ce_4_3, cw_1_3]

/-- Table value for the example input. -/
theorem ce_1_3 : e cP cQ 1 3 = (169/100 : ℚ) := by
  rw [e_rec cP cQ 1 3 (by norm_num) (by norm_num), cpick_1_3]

/-- Table value for the example input. -/
theorem cw_2_4 : w cP cQ 2 4 = (73/100 : ℚ) := by
  norm_num [cP, cQ, w]

/-- Scan result for the example input. -/
theorem cpick_2_4 : pickBest (cands cP cQ 2 4) = some ((129/100 : ℚ), 3) := by
  rw [cands]
  norm_num [List.range', candCost, pickBest, step, ce_2_1, ce_3_4, ce_2_2, ce_4_4, ce_2_3, ce_5_4, cw_2_4]

/-- Table value for the example input. -/
theorem ce_2_4 : e cP cQ 2 4 = (129/100 : ℚ) := by
  rw [e_rec cP cQ 2 4 (by norm_num) (by norm_num), cpick_2_4]

/-- Table value for the example input. -/
theorem cw_1_4 : w cP cQ 1 4 = (11/10 : ℚ) := by
  norm_num [cP, cQ, w]

/-- Scan result for the example input. -/
theorem cpick_1_4 : pickBest (cands cP cQ 1 4) = some ((56/25 : ℚ), 2) := by
  rw [cands]
  norm_num [List.range', candCost, pickBest, step, ce_1_0, ce_2_4, ce_1_1, ce_3_4, ce_1_2, ce_4_4, ce_1_3, ce_5_4, cw_1_4]

/-- Table value for the example input. -/
theorem ce_1_4 : e cP cQ 1 4 = (56/25 : ℚ) := by
  rw [e_rec cP cQ 1 4 (by norm_num) (by norm_num), cpick_1_4]

/-- Chosen root for the example input. -/
theorem croot_1_4 : root cP cQ 1 4 = 2 := by
  rw [root, if_neg (by norm_num), if_neg (by norm_num), cpick_1_4]

/-- Table value for the example input. -/
theorem te_1_0 : e tieP tieQ 1 0 = (0 : ℚ) := by
  rw [e_base tieP tieQ 1 0 (by norm_num) rfl]
  norm_num [tieQ]

/-- Table value for the example input. -/
theorem te_2_1 : e tieP tieQ 2 1 = (0 : ℚ) := by
  rw [e_base tieP tieQ 2 1 (by norm_num) rfl]
  norm_num [tieQ]

/-- Table value for the example input. -/
theorem te_3_2 : e tieP tieQ 3 2 = (0 : ℚ) := by
  rw [e_base tieP tieQ 3 2 (by norm_num) rfl]
  norm_num [tieQ]

/-- Table value for the example input. -/
theorem tw_1_1 : w tieP tieQ 1 1 = (1/2 : ℚ) := by
  norm_num [tieP, tieQ, w]

/-- Scan result for the example input. -/
theorem tpick_1_1 : pickBest (cands tieP tieQ 1 1) = some ((1/2 : ℚ), 1) := by
  rw [cands]
  norm_num [List.range', candCost, pickBest, step, te_1_0, te_2_1, tw_1_1]

/-- Table value for the example input. -/
theorem te_1_1 : e tieP tieQ 1 1 = (1/2 : ℚ) := by
  rw [e_rec tieP tieQ 1 1 (by norm_num) (by norm_num), tpick_1_1]

/-- Table value for the example input. -/
theorem tw_2_2 : w tieP tieQ 2 2 = (1/2 : ℚ) := by
  norm_num [tieP, tieQ, w]

/-- Scan result for the example input. -/
theorem tpick_2_2 : pickBest (cands tieP tieQ 2 2) = some ((1/2 : ℚ), 2) := by
  rw [cands]
  norm_num [List.range', candCost, pickBest, step, te_2_1, te_3_2, tw_2_2]

/-- Table value for the example input. -/
theorem te_2_2 : e tieP tieQ 2 2 = (1/2 : ℚ) := by
  rw [e_rec tieP tieQ 2 2 (by norm_num) (by norm_num), tpick_2_2]

/-- Table value for the example input. -/
theorem tw_1_2 : w tieP tieQ 1 2 = (1 : ℚ) := by
  norm_num [tieP, tieQ, w]

/-- Scan result for the example input. -/
theorem tpick_1_2 : pickBest (cands tieP tieQ 1 2) = some ((3/2 : ℚ), 1) := by
  rw [cands]
  norm_num [List.range', candCost, pickBest, step, te_1_0, te_2_2, te_1_1, te_3_2, tw_1_2]

/-- Table value for the example input. -/
theorem te_1_2 : e tieP tieQ 1 2 = (3/2 : ℚ) := by
  rw [e_rec tieP tieQ 1 2 (by norm_num) (by norm_num), tpick_1_2]

/-- Chosen root for the example input. -/
theorem troot_1_2 : root tieP tieQ 1 2 = 1 := by
  rw [root, if_neg (by norm_num), if_neg (by norm_num), tpick_1_2]

end OBST

namespace OBST

/-- C1: for every p, q, keys with len(q) = len(p)+1, len(keys) = len(p) = n
    and all entries nonnegative, the table entry e[1][n] of optimal_bst is
    the least expected search cost over all binary-search-tree shapes on the
    keys 1..n, the cost of a tree being the sum over keys of
    p[k] * (depth(k) + 1) plus the sum over gaps of q[g] * depth(gap g),
    where a gap's depth is the comparison count of the unsuccessful search,
    one more than the depth at which its empty subtree hangs. -/
theorem claim_C1_global_minimum {α : Type} (p q : List ℚ) (keys : List α) (n : ℕ)
    (hn : n = p.length) (hq : q.length = p.length + 1) (hk : keys.length = p.length)
    (hp0 : ∀ x ∈ p, 0 ≤ x) (hq0 : ∀ x ∈ q, 0 ≤ x) :
    IsLeast {x : ℚ | ∃ t : BTree, wfTree t 1 n ∧ x = costT p q t 1} (e p q 1 n) := by
  constructor
  · obtain ⟨hwf, hcost⟩ := buildTree_spec p q n 1 n (le_refl 1) (by omega) (by omega)
    refine ⟨buildTree p q n 1 n, hwf, ?_⟩
    rw [costT, ← costR_eq_costD p q _ 1 n hwf (le_refl 1), hcost]
  · rintro x ⟨t, hwf, rfl⟩
    rw [costT, ← costR_eq_costD p q t 1 n hwf (le_refl 1)]
    exact e_le_costR p q t 1 n (le_refl 1) hwf

/-- Witness for C1 at a concrete one-key input. -/
theorem claim_C1_witness :
    IsLeast {x : ℚ | ∃ t : BTree, wfTree t 1 1 ∧ x = costT [1/2] [1/4, 1/4] t 1}
      (e [1/2] [1/4, 1/4] 1 1) :=
  claim_C1_global_minimum [1/2] [1/4, 1/4] [(0 : ℕ)] 1 rfl rfl rfl
    (by intro x hx; fin_cases hx <;> norm_num)
    (by intro x hx; fin_cases hx <;> norm_num)

/-- C2 counterexample: on the fixed example input of main the probabilities
    sum to 11/10 rather than 1, the table entry e[1][4] is 56/25 = 2.24,
    which is not within 0.005 of 1.34, and the overall root is key index 2
    (Bruno), not 1 (Ana). -/
theorem claim_C2_counterexample :
    cP.sum + cQ.sum = 11/10 ∧
    ¬ |e cP cQ 1 4 - 134/100| ≤ 5/1000 ∧
    root cP cQ 1 4 ≠ 1 := by
  refine ⟨by norm_num [cP, cQ], ?_, ?_⟩
  · rw [ce_1_4, show (56:ℚ)/25 - 134/100 = 9/10 from by norm_num,
      abs_of_nonneg (by norm_num : (0:ℚ) ≤ 9/10)]
    norm_num
  · rw [croot_1_4]
    norm_num

/-- C2 amended: the example inputs sum to 11/10 and main rescales them by
    10/11 before running optimal_bst.  On the raw inputs e[1][4] = 56/25 and
    root[1][4] = 2 (Bruno); on the exactly rescaled inputs e[1][4] = 112/55,
    about 2.04, and the root is again 2; the in-order traversal reproduces
    the input keys exactly in both cases. -/
theorem claim_C2_amended :
    cP.sum + cQ.sum = 11/10 ∧
    e cP cQ 1 4 = 56/25 ∧ root cP cQ 1 4 = 2 ∧
    e cPn cQn 1 4 = 112/55 ∧ root cPn cQn 1 4 = 2 ∧
    |e cPn cQn 1 4 - 204/100| ≤ 1/100 ∧
    inorder_from_root (root cP cQ) keysAna 1 4 = keysAna ∧
    inorder_from_root (root cPn cQn) keysAna 1 4 = keysAna := by
  have hscale_e : e cPn cQn 1 4 = 112/55 := by
    rw [show cPn = cP.map (fun x => (10/11) * x) from rfl,
      show cQn = cQ.map (fun x => (10/11) * x) from rfl,
      e_scale cP cQ (10/11) (by norm_num) 1 4, ce_1_4]
    norm_num
  have hscale_r : ∀ i j, root cPn cQn i j = root cP cQ i j := by
    intro i j
    rw [show cPn = cP.map (fun x => (10/11) * x) from rfl,
      show cQn = cQ.map (fun x => (10/11) * x) from rfl,
      root_scale cP cQ (10/11) (by norm_num) i j]
  have hR : ∀ i j, 1 ≤ i → i ≤ j → i ≤ root cP cQ i j ∧ root cP cQ i j ≤ j := by
    intro i j h1 h2
    obtain ⟨a, b, _, _, _⟩ := root_spec cP cQ i j h1 h2
    exact ⟨a, b⟩
  have hino : inorder_from_root (root cP cQ) keysAna 1 4 = keysAna := by
    rw [inorder_from_root,
      inorderF_slice keysAna (root cP cQ) hR (4 + 1 - 1) 1 4 (le_refl 1)
        (by norm_num [keysAna]) (le_refl _)]
    rfl
  refine ⟨by norm_num [cP, cQ], ce_1_4, croot_1_4, hscale_e, ?_, ?_, hino, ?_⟩
  · rw [hscale_r 1 4, croot_1_4]
  · rw [hscale_e, show (112:ℚ)/55 - 204/100 = -(1/275) from by norm_num, abs_neg,
      abs_of_nonneg (by norm_num : (0:ℚ) ≤ 1/275)]
    norm_num
  · have hfun : root cPn cQn = root cP cQ := by
      funext i j
      exact hscale_r i j
    rw [hfun, hino]

/-- C3: for every valid input, the in-order traversal derived from the root
    table of optimal_bst reproduces the original key sequence exactly. -/
theorem claim_C3_inorder_roundtrip {α : Type} [Inhabited α] (p q : List ℚ)
    (keys : List α) (hq : q.length = p.length + 1)
    (hp0 : ∀ x ∈ p, 0 ≤ x) (hq0 : ∀ x ∈ q, 0 ≤ x)
    (hk : keys.length = p.length) :
    inorder_from_root (root p q) keys 1 p.length = keys := by
  have hR : ∀ i j, 1 ≤ i → i ≤ j → i ≤ root p q i j ∧ root p q i j ≤ j := by
    intro i j h1 h2
    obtain ⟨a, b, _, _, _⟩ := root_spec p q i j h1 h2
    exact ⟨a, b⟩
  rw [inorder_from_root,
    inorderF_slice keys (root p q) hR (p.length + 1 - 1) 1 p.length (le_refl 1)
      (by omega) (le_refl _)]
  rw [show (1:ℕ) - 1 = 0 from rfl, List.drop_zero,
    show p.length + 1 - 1 = p.length from by omega, ← hk, List.take_length]

/-- Witness for C3 at a concrete one-key input. -/
theorem claim_C3_witness :
    inorder_from_root (root [1/2] [1/4, 1/4]) [(5 : ℕ)] 1 1 = [(5 : ℕ)] :=
  claim_C3_inorder_roundtrip [1/2] [1/4, 1/4] [(5 : ℕ)] rfl
    (by intro x hx; fin_cases hx <;> norm_num)
    (by intro x hx; fin_cases hx <;> norm_num) rfl

/-- C4: the scan keeps the earliest candidate on ties: for every non-empty
    interval the chosen root lies in i..j, its candidate cost is minimal,
    and every candidate strictly to its left has strictly larger cost; in
    particular for p = [1/2, 1/2], q = [0, 0, 0] the root of [1,2] is 1. -/
theorem claim_C4_tiebreak :
    (∀ (p q : List ℚ) (i j : ℕ), 1 ≤ i → i ≤ j →
      (i ≤ root p q i j ∧ root p q i j ≤ j) ∧
      (∀ r, i ≤ r → r ≤ j →
        candCost p q i j (root p q i j) ≤ candCost p q i j r) ∧
      (∀ r, i ≤ r → r < root p q i j →
        candCost p q i j (root p q i j) < candCost p q i j r)) ∧
    root tieP tieQ 1 2 = 1 := by
  refine ⟨?_, troot_1_2⟩
  intro p q i j h1 h2
  obtain ⟨a, b, _, hmin, hleft⟩ := root_spec p q i j h1 h2
  exact ⟨⟨a, b⟩, hmin, hleft⟩

/-- Witness for C4 at the tie-break input. -/
theorem claim_C4_witness :
    1 ≤ root tieP tieQ 1 2 ∧ root tieP tieQ 1 2 ≤ 2 :=
  (claim_C4_tiebreak.1 tieP tieQ 1 2 (by norm_num) (by norm_num)).1

/-- C5: the incrementally accumulated weight table equals its closed form,
    sum of p over i..j plus sum of q over i-1..j, exactly, for every
    interval including the empty ones. -/
theorem claim_C5_weight_closed_form (p q : List ℚ) (i j : ℕ)
    (hq : q.length = p.length + 1) (h1 : 1 ≤ i) (h2 : i ≤ j + 1)
    (h3 : j ≤ p.length) :
    w p q i j = wSpec p q i j :=
  w_eq_wSpec p q j i h1 h2

/-- Witness for C5 at a concrete input. -/
theorem claim_C5_witness :
    w [1/2] [1/4, 1/4] 1 1 = wSpec [1/2] [1/4, 1/4] 1 1 :=
  claim_C5_weight_closed_form [1/2] [1/4, 1/4] 1 1 rfl (le_refl 1)
    (by norm_num) (by norm_num)

/-- C6: for nonnegative inputs, on every non-empty interval the cost table
    entry is at least the weight table entry. -/
theorem claim_C6_monotonic_cost (p q : List ℚ) (i j : ℕ)
    (hq : q.length = p.length + 1)
    (hp0 : ∀ x ∈ p, 0 ≤ x) (hq0 : ∀ x ∈ q, 0 ≤ x)
    (h1 : 1 ≤ i) (h2 : i ≤ j) (h3 : j ≤ p.length) :
    e p q i j ≥ w p q i j :=
  e_ge_w p q hp0 hq0 i j h1 h2

/-- Witness for C6 at a concrete input. -/
theorem claim_C6_witness :
    e [1/2] [1/4, 1/4] 1 1 ≥ w [1/2] [1/4, 1/4] 1 1 :=
  claim_C6_monotonic_cost [1/2] [1/4, 1/4] 1 1 rfl
    (by intro x hx; fin_cases hx <;> norm_num)
    (by intro x hx; fin_cases hx <;> norm_num)
    (le_refl 1) (le_refl 1) (by norm_num)

/-- C7: for n = 0 (empty p and keys, q of length one) the cost table has
    e[1][0] = q[0] and all three traversals of the interval [1,0] are
    empty. -/
theorem claim_C7_base_case (q0 : ℚ) :
    e [] [q0] 1 0 = q0 ∧
    preorder_from_root (root [] [q0]) ([] : List String) 1 0 = [] ∧
    inorder_from_root (root [] [q0]) ([] : List String) 1 0 = [] ∧
    postorder_from_root (root [] [q0]) ([] : List String) 1 0 = [] := by
  refine ⟨?_, rfl, rfl, rfl⟩
  rw [e_base [] [q0] 1 0 (le_refl 1) rfl]
  rfl

/-- C8: the validator raises exactly when the shapes mismatch, some entry is
    negative, or the total differs from 1 by more than 1e-6; otherwise it
    returns normally (it is a pure function and modifies nothing). -/
theorem claim_C8_validator (p q : List ℚ) :
    ((∃ ve, validate_probabilities p q = Except.error ve) ↔
      (q.length ≠ p.length + 1 ∨ (∃ x ∈ p ++ q, x < 0) ∨
        |p.sum + q.sum - 1| > 1 / 1000000)) ∧
    (¬(q.length ≠ p.length + 1 ∨ (∃ x ∈ p ++ q, x < 0) ∨
        |p.sum + q.sum - 1| > 1 / 1000000) →
      validate_probabilities p q = Except.ok ()) := by
  rw [validate_probabilities]
  split_ifs with h1 h2 h3
  · constructor
    · exact iff_of_true ⟨ValidationError.shapeMismatch, rfl⟩ (Or.inl h1)
    · intro hn
      exact absurd (Or.inl h1) hn
  · have h2x : ∃ x ∈ p ++ q, x < 0 := by
      obtain ⟨x, hx, hlt⟩ := List.any_eq_true.mp h2
      exact ⟨x, hx, of_decide_eq_true hlt⟩
    constructor
    · exact iff_of_true ⟨ValidationError.negativeProbability, rfl⟩ (Or.inr (Or.inl h2x))
    · intro hn
      exact absurd (Or.inr (Or.inl h2x)) hn
  · constructor
    · exact iff_of_true ⟨ValidationError.normalizationFailure, rfl⟩ (Or.inr (Or.inr h3))
    · intro hn
      exact absurd (Or.inr (Or.inr h3)) hn
  · constructor
    · apply iff_of_false
      · rintro ⟨ve, hve⟩
        exact hve
      · rintro (h | h | h)
        · exact h1 h
        · obtain ⟨x, hx, hlt⟩ := h
          exact h2 (List.any_eq_true.mpr ⟨x, hx, decide_eq_true hlt⟩)
        · exact h3 h
    · intro _
      rfl

/-- Witness for C8 at a concrete valid input. -/
theorem claim_C8_witness :
    validate_probabilities [1/2] [1/4, 1/4] = Except.ok () := by
  apply (claim_C8_validator [1/2] [1/4, 1/4]).2
  push_neg
  refine ⟨by norm_num, ?_, by norm_num⟩
  intro x hx
  fin_cases hx <;> norm_num

/-- C9: uniformly rescaling all probabilities by a positive constant leaves
    every entry of the root table unchanged. -/
theorem claim_C9_scaling_invariant (p q : List ℚ) (c : ℚ) (i j : ℕ)
    (hq : q.length = p.length + 1)
    (hp0 : ∀ x ∈ p, 0 ≤ x) (hq0 : ∀ x ∈ q, 0 ≤ x)
    (hc : 0 < c) (h1 : 1 ≤ i) (h2 : i ≤ j) (h3 : j ≤ p.length) :
    root (p.map (fun x => c * x)) (q.map (fun x => c * x)) i j = root p q i j :=
  root_scale p q c hc i j

/-- Witness for C9 at a concrete input. -/
theorem claim_C9_witness :
    root ([1/2].map (fun x => 2 * x)) ([1/4, 1/4].map (fun x => 2 * x)) 1 1 =
      root [1/2] [1/4, 1/4] 1 1 :=
  claim_C9_scaling_invariant [1/2] [1/4, 1/4] 2 1 1 rfl
    (by intro x hx; fin_cases hx <;> norm_num)
    (by intro x hx; fin_cases hx <;> norm_num)
    (by norm_num) (le_refl 1) (le_refl 1) (by norm_num)

/-- C10: on every valid non-empty interval the chosen root lies inside the
    interval; hence both recursive traversal calls strictly shrink the
    interval length and the key access keys[root-1] is in bounds. -/
theorem claim_C10_root_invariant {α : Type} (p q : List ℚ) (keys : List α)
    (i j : ℕ) (hq : q.length = p.length + 1) (hk : keys.length = p.length)
    (hp0 : ∀ x ∈ p, 0 ≤ x) (hq0 : ∀ x ∈ q, 0 ≤ x)
    (h1 : 1 ≤ i) (h2 : i ≤ j) (h3 : j ≤ p.length) :
    (i ≤ root p q i j ∧ root p q i j ≤ j) ∧
    (root p q i j - 1) + 1 - i < j + 1 - i ∧
    j + 1 - (root p q i j + 1) < j + 1 - i ∧
    root p q i j - 1 < keys.length := by
  obtain ⟨a, b, _, _, _⟩ := root_spec p q i j h1 h2
  exact ⟨⟨a, b⟩, by omega, by omega, by omega⟩

/-- Witness for C10 at a concrete input. -/
theorem claim_C10_witness :
    (1 ≤ root [1/2] [1/4, 1/4] 1 1 ∧ root [1/2] [1/4, 1/4] 1 1 ≤ 1) ∧
    (root [1/2] [1/4, 1/4] 1 1 - 1) + 1 - 1 < 1 + 1 - 1 ∧
    1 + 1 - (root [1/2] [1/4, 1/4] 1 1 + 1) < 1 + 1 - 1 ∧
    root [1/2] [1/4, 1/4] 1 1 - 1 < [(5 : ℕ)].length :=
  claim_C10_root_invariant [1/2] [1/4, 1/4] [(5 : ℕ)] 1 1 rfl rfl
    (by intro x hx; fin_cases hx <;> norm_num)
    (by intro x hx; fin_cases hx <;> norm_num)
    (le_refl 1) (le_refl 1) (by norm_num)

end OBST
